import Mathlib

/-!
# Verification of the stock-cut optimizer core (`stock_optimizer_app.py`)

Shallow embedding of the three core functions of the program:

* `parse_length`       : the imperial length-notation parser,
* `format_feet_inches` : the feet/inches formatter,
* `fit_cuts_to_stock`  : the best-fit-decreasing cut packing engine,

together with a specification-side definition `bfd_spec` of the packing
algorithm (written from the specification's wording) and theorems settling
the claims about them.

Python floats are modelled by exact rationals `ℚ`; Python exceptions by
`Option` (`none` = the call raises).  Because the `Rat` field operations in
the ambient library are `@[irreducible]` (which blocks kernel evaluation of
concrete test cases), the embedding uses its own executable rational
operations `qAdd`, `qSub`, `qMul`, `qDiv` built on `Rat.divInt`; the bridge
lemmas `qAdd_eq`, `qSub_eq`, `qMul_eq`, `qDiv_eq` below identify them with
the ordinary field operations of `ℚ`, and all theorem statements use the
ordinary operations.
-/

set_option maxRecDepth 40000

/-! ## Executable rational arithmetic -/

/-- Exact rational addition (executable; equals `a + b`, see `qAdd_eq`). -/
def qAdd (a b : ℚ) : ℚ := Rat.divInt (a.num * b.den + b.num * a.den) (a.den * b.den)

/-- Exact rational subtraction (executable; equals `a - b`, see `qSub_eq`). -/
def qSub (a b : ℚ) : ℚ := Rat.divInt (a.num * b.den - b.num * a.den) (a.den * b.den)

/-- Exact rational multiplication (executable; equals `a * b`, see `qMul_eq`). -/
def qMul (a b : ℚ) : ℚ := Rat.divInt (a.num * b.num) (a.den * b.den)

/-- Exact rational division (executable; equals `a / b`, see `qDiv_eq`). -/
def qDiv (a b : ℚ) : ℚ := Rat.divInt (a.num * b.den) (a.den * b.num)

/-- The integer `n` as a rational (executable). -/
def ofIntQ (n : ℤ) : ℚ := Rat.divInt n 1

/-- Absolute value on `ℚ` (executable; equals `|x|`, see `qAbs_eq`). -/
def qAbs (x : ℚ) : ℚ := if x < 0 then Rat.divInt (-x.num) x.den else x

/-- Python `int(x)` on a float: truncation toward zero. -/
def pyInt (x : ℚ) : ℤ := if x < 0 then Rat.ceil x else Rat.floor x

/-- Round a rational to the nearest integer, halves to the even integer.
Models Python `round` (banker's rounding) on the exact value. -/
def roundHalfEven (x : ℚ) : ℤ :=
  let n := Rat.floor x
  let r := qSub x (ofIntQ n)
  if r < Rat.divInt 1 2 then n
  else if Rat.divInt 1 2 < r then n + 1
  else if n % 2 = 0 then n else n + 1

/-- Python `round(x, 4)`: round to 4 decimal places.  Models the float
rounding of the source on the exact rational value. -/
def pyRound4 (x : ℚ) : ℚ := Rat.divInt (roundHalfEven (qMul x 10000)) 10000

/-! ## `Fraction.limit_denominator` (CPython algorithm) -/

/-- Continued-fraction loop of CPython's `Fraction.limit_denominator`:
starting from convergents `p0/q0`, `p1/q1` it walks the continued-fraction
expansion of `n/d` until the next denominator would exceed `maxDen`.
`fuel` only bounds the recursion; the loop breaks long before `fuel`
(passed as `d + 1`) runs out, because `d` strictly decreases. -/
def limitDenAux (maxDen : ℕ) : ℕ → ℤ × ℤ × ℤ × ℤ → ℤ → ℤ → (ℤ × ℤ) × (ℤ × ℤ)
  | 0, (p0, q0, p1, q1), _, _ => ((p0, q0), (p1, q1))
  | fuel + 1, (p0, q0, p1, q1), n, d =>
    let a := Int.fdiv n d
    let q2 := q0 + a * q1
    if (maxDen : ℤ) < q2 then ((p0, q0), (p1, q1))
    else limitDenAux maxDen fuel (p1, q1, p0 + a * p1, q2) d (n - a * d)

/-- Python `Fraction.limit_denominator(maxDen)`: the closest fraction to `x`
with denominator at most `maxDen` (CPython's algorithm, including its
tie-breaking between the two final candidate bounds). -/
def limit_denominator (x : ℚ) (maxDen : ℕ) : ℚ :=
  if x.den ≤ maxDen then x
  else
    let r := limitDenAux maxDen (x.den + 1) (0, 1, 1, 0) x.num (x.den : ℤ)
    let k := Int.fdiv ((maxDen : ℤ) - r.1.2) r.2.2
    let bound1 := Rat.divInt (r.1.1 + k * r.2.1) (r.1.2 + k * r.2.2)
    let bound2 := Rat.divInt r.2.1 r.2.2
    if qAbs (qSub bound2 x) ≤ qAbs (qSub bound1 x) then bound2 else bound1

/-! ## Character/string utilities (Python `str` methods on `List Char`) -/

/-- Whitespace recognized by Python `str.strip` and the regex class `\s`
(space, tab, newline, carriage return, vertical tab, form feed). -/
def isSp (c : Char) : Bool :=
  c = ' ' || c = '\t' || c = '\n' || c = '\r' || c = '\x0b' || c = '\x0c'

/-- ASCII decimal digit test (regex class `\d`). -/
def isDigitCh (c : Char) : Bool := '0' ≤ c && c ≤ '9'

/-- Python `str.lower` on the ASCII range (the only characters the parser
normalizes). -/
def pyLower (c : Char) : Char :=
  if 'A' ≤ c && c ≤ 'Z' then Char.ofNat (c.toNat + 32) else c

/-- Python `str.strip`: drop whitespace from both ends. -/
def pyStrip (s : List Char) : List Char :=
  ((s.dropWhile isSp).reverse.dropWhile isSp).reverse

/-- Is `pat` a prefix of `s`? -/
def isPrefixList : List Char → List Char → Bool
  | [], _ => true
  | _ :: _, [] => false
  | p :: ps, c :: cs => p = c && isPrefixList ps cs

/-- One pass of Python `str.replace(pat, repl)`: replace non-overlapping
occurrences left to right.  `fuel` (passed as the string length) only bounds
the recursion; every step consumes at least one character because all
patterns used are nonempty. -/
def replaceFuel (pat repl : List Char) : ℕ → List Char → List Char
  | _, [] => []
  | 0, s => s
  | fuel + 1, c :: cs =>
    if isPrefixList pat (c :: cs) then
      repl ++ replaceFuel pat repl fuel ((c :: cs).drop pat.length)
    else c :: replaceFuel pat repl fuel cs

/-- Python `s.replace(pat, repl)`. -/
def pyReplace (s pat repl : List Char) : List Char := replaceFuel pat repl s.length s

/-- Decimal digits of a natural number (`fuel`-bounded division loop). -/
def natDigitsAux : ℕ → ℕ → List Char → List Char
  | 0, _, acc => acc
  | _ + 1, 0, acc => acc
  | fuel + 1, n, acc => natDigitsAux fuel (n / 10) (Char.ofNat (48 + n % 10) :: acc)

/-- Python `str(n)` for a nonnegative integer. -/
def natToChars (n : ℕ) : List Char :=
  if n = 0 then ['0'] else natDigitsAux (n + 1) n []

/-- Python `str(n)` for an integer. -/
def intToChars (n : ℤ) : List Char :=
  if n < 0 then '-' :: natToChars n.natAbs else natToChars n.natAbs

/-! ## `parse_length` (source lines 10-44) -/

/-- The input normalization of `parse_length`: strip, lowercase, then map the
unit words to their symbols in source order ("feet", "foot", "ft" to the foot
mark `'`; "inches", "inch", "in" to the inch mark `"`). -/
def normalizeInput (s : List Char) : List Char :=
  let t0 := (pyStrip s).map pyLower
  let t1 := pyReplace t0 ['f', 'e', 'e', 't'] ['\x27']
  let t2 := pyReplace t1 ['f', 'o', 'o', 't'] ['\x27']
  let t3 := pyReplace t2 ['f', 't'] ['\x27']
  let t4 := pyReplace t3 ['i', 'n', 'c', 'h', 'e', 's'] ['"']
  let t5 := pyReplace t4 ['i', 'n', 'c', 'h'] ['"']
  pyReplace t5 ['i', 'n'] ['"']

/-- Leading run of ASCII digits. -/
def takeDigits (s : List Char) : List Char := s.takeWhile isDigitCh

/-- Numeric value of a digit run. -/
def natOfDigits (ds : List Char) : ℕ := ds.foldl (fun a c => 10 * a + (c.toNat - 48)) 0

/-- `re.fullmatch(r"\d+\s*/\s*\d+", s)`: a fraction, allowing whitespace
around the slash. -/
def matchFracOnly (s : List Char) : Bool :=
  let ds := takeDigits s
  let r1 := (s.drop ds.length).dropWhile isSp
  !ds.isEmpty &&
    match r1 with
    | '/' :: r2 =>
      let r3 := r2.dropWhile isSp
      let ds2 := takeDigits r3
      !ds2.isEmpty && (r3.drop ds2.length).isEmpty
    | _ => false

/-- `re.fullmatch(r"\d*\.\d+", s)`: a bare decimal. -/
def matchDecOnly (s : List Char) : Bool :=
  let r1 := s.drop (takeDigits s).length
  match r1 with
  | '.' :: r2 =>
    let ds2 := takeDigits r2
    !ds2.isEmpty && (r2.drop ds2.length).isEmpty
  | _ => false

/-- Python `Fraction(string)`: optional surrounding whitespace, optional
sign, then either `digits`, `digits/digits` (no spaces around the slash), or
a decimal `d*.d*` with at least one digit.  Returns `none` where the
constructor raises (`ValueError` on malformed input; `ZeroDivisionError` on
a zero denominator).  Exponent suffixes are not modelled: no call site can
produce one (the guarding regexes admit none). -/
def fractionOfChars (s : List Char) : Option ℚ :=
  let s1 := s.dropWhile isSp
  let sgnStr : ℤ × List Char :=
    match s1 with
    | '-' :: r => (-1, r)
    | '+' :: r => (1, r)
    | r => (1, r)
  let sgn := sgnStr.1
  let s2 := sgnStr.2
  let ds := takeDigits s2
  let r1 := s2.drop ds.length
  match r1 with
  | '/' :: r2 =>
    let ds2 := takeDigits r2
    let r3 := r2.drop ds2.length
    if !ds.isEmpty && !ds2.isEmpty && (r3.dropWhile isSp).isEmpty then
      if natOfDigits ds2 = 0 then none
      else some (Rat.divInt (sgn * natOfDigits ds) (natOfDigits ds2))
    else none
  | '.' :: r2 =>
    let ds2 := takeDigits r2
    let r3 := r2.drop ds2.length
    if (!ds.isEmpty || !ds2.isEmpty) && (r3.dropWhile isSp).isEmpty then
      some (Rat.divInt (sgn * (natOfDigits ds * 10 ^ ds2.length + natOfDigits ds2))
        (10 ^ ds2.length))
    else none
  | r =>
    if !ds.isEmpty && (r.dropWhile isSp).isEmpty then
      some (Rat.divInt (sgn * natOfDigits ds) 1)
    else none

/-- The trailing `\s*(?:\"|$)` of the general pattern under `re.match`
(prefix semantics: characters after a matched `"` are ignored). -/
def matchTailEnd (s : List Char) : Bool :=
  match s.dropWhile isSp with
  | [] => true
  | '"' :: _ => true
  | _ => false

/-- The optional group `(?:\s*(\d+/\d+))?` taken as present: greedy
whitespace, then `digits/digits`; returns the two capture values and the
rest of the input.  (Greediness is deterministic here: the character classes
of adjacent pieces are disjoint.) -/
def matchFracGroup (s : List Char) : Option ((ℕ × ℕ) × List Char) :=
  let r := s.dropWhile isSp
  let ds := takeDigits r
  if ds.isEmpty then none
  else
    match r.drop ds.length with
    | '/' :: r2 =>
      let ds2 := takeDigits r2
      if ds2.isEmpty then none
      else some ((natOfDigits ds, natOfDigits ds2), r2.drop ds2.length)
    | _ => none

/-- After the whole-inch digits are fixed, try the fraction group present
first (regex greediness), then absent; in each case the input must finish
with `matchTailEnd`. -/
def tryFracThenTail (g1 : Option ℕ) (g2 : Option ℕ) (s : List Char) :
    Option (Option ℕ × Option ℕ × Option (ℕ × ℕ)) :=
  match matchFracGroup s with
  | some (fr, rest) =>
    if matchTailEnd rest then some (g1, g2, some fr)
    else if matchTailEnd s then some (g1, g2, none)
    else none
  | none => if matchTailEnd s then some (g1, g2, none) else none

/-- Backtracking over the greedy optional group `(\d+)?`: try taking
`t = ds.length, ds.length - 1, …, 1` digits of the maximal digit run `ds`,
then the empty match.  `rest` is the input after `ds`. -/
def tryWholeAux (g1 : Option ℕ) (ds rest : List Char) :
    ℕ → Option (Option ℕ × Option ℕ × Option (ℕ × ℕ))
  | 0 => tryFracThenTail g1 none (ds ++ rest)
  | t + 1 =>
    match tryFracThenTail g1 (some (natOfDigits (ds.take (t + 1)))) (ds.drop (t + 1) ++ rest) with
    | some g => some g
    | none => tryWholeAux g1 ds rest t

/-- Continuation of the general pattern after the feet group:
`\s*(\d+)?(?:\s*(\d+/\d+))?\s*(?:\"|$)`. -/
def afterFeetCont (g1 : Option ℕ) (s : List Char) :
    Option (Option ℕ × Option ℕ × Option (ℕ × ℕ)) :=
  let r := s.dropWhile isSp
  let ds := takeDigits r
  tryWholeAux g1 ds (r.drop ds.length) ds.length

/-- `re.match(r"(?:(\d+)')?\s*(\d+)?(?:\s*(\d+/\d+))?\s*(?:\"|$)", s)`:
the three captured groups (feet digits, whole-inch digits, fraction), or
`none` when the pattern does not match a prefix of `s`.  The feet group can
only be the maximal leading digit run followed by the foot mark; if its
continuation fails the match backtracks to the group being absent. -/
def generalMatch (s : List Char) : Option (Option ℕ × Option ℕ × Option (ℕ × ℕ)) :=
  let ds := takeDigits s
  let feetBranch : Option (ℕ × List Char) :=
    if ds.isEmpty then none
    else
      match s.drop ds.length with
      | '\x27' :: r => some (natOfDigits ds, r)
      | _ => none
  match feetBranch with
  | some (ftv, r) =>
    match afterFeetCont (some ftv) r with
    | some g => some g
    | none => afterFeetCont none s
  | none => afterFeetCont none s

/-- The general-pattern branch of `parse_length` (source lines 33-44):
sum the matched feet, whole inches and fractional inches; `none` models the
`ValueError` raised when the pattern fails (and the uncaught
`ZeroDivisionError` on a zero fraction denominator). -/
def generalParse (s : List Char) : Option ℚ :=
  match generalMatch s with
  | none => none
  | some (g1, g2, g3) =>
    let ft : ℚ := match g1 with | some n => ofIntQ n | none => 0
    let inch0 : ℚ := match g2 with | some n => ofIntQ n | none => 0
    match g3 with
    | some (a, b) =>
      if b = 0 then none
      else some (qAdd ft (qDiv (qAdd inch0 (Rat.divInt a b)) 12))
    | none => some (qAdd ft (qDiv inch0 12))

/-- `parse_length` (source lines 10-44), on the exact rational value:
normalize the input, try the fraction-or-decimal-only case (inches, divided
by 12; a failing `Fraction` constructor falls through), then the general
pattern; `none` models raising. -/
def parse_length (length_str : String) : Option ℚ :=
  let s := normalizeInput length_str.data
  if matchFracOnly s || matchDecOnly s then
    match fractionOfChars s with
    | some inch => some (qDiv inch 12)
    | none => generalParse s
  else generalParse s

/-! ## `format_feet_inches` (source lines 46-65) -/

/-- `format_feet_inches(value, precision)` (source lines 46-65) on the exact
rational value: convert to total inches rounded to 4 decimals, split into
feet / whole inches / fractional remainder, reduce the remainder with
`limit_denominator`, carry a fraction of 1/1 into the whole inches and 12
whole inches into the feet, then render `feet' inches fraction"` and strip.
The Python default `precision=32` is passed explicitly by every caller
modelled here. -/
def format_feet_inches (value : ℚ) (precision : ℕ) : String :=
  let total_inches := pyRound4 (qMul value 12)
  let feet : ℤ := Rat.floor (qDiv total_inches 12)
  let inches := qSub total_inches (qMul (ofIntQ feet) 12)
  let whole_inches0 : ℤ := pyInt inches
  let frac := qSub inches (ofIntQ whole_inches0)
  let frac_rounded0 := limit_denominator frac precision
  let carry : Bool := frac_rounded0.num = (frac_rounded0.den : ℤ)
  let whole_inches1 : ℤ := if carry then whole_inches0 + 1 else whole_inches0
  let frac_rounded : ℚ := if carry then 0 else frac_rounded0
  let feet2 : ℤ := if 12 ≤ whole_inches1 then feet + 1 else feet
  let whole_inches : ℤ := if 12 ≤ whole_inches1 then whole_inches1 - 12 else whole_inches1
  let frac_str : List Char :=
    if frac_rounded.num ≠ 0 then
      ' ' :: (intToChars frac_rounded.num ++ '/' :: intToChars (frac_rounded.den : ℤ))
    else []
  let inch_str : List Char :=
    if whole_inches ≠ 0 ∨ frac_str ≠ [] then intToChars whole_inches ++ frac_str ++ ['"']
    else []
  ⟨pyStrip (intToChars feet2 ++ '\x27' :: ' ' :: inch_str)⟩

/-! ## `fit_cuts_to_stock` (source lines 69-95) -/

/-- `[(cut + kerf, cut) for cut in cuts]` (source line 70). -/
def cutsWithKerf (kerf : ℚ) (cuts : List ℚ) : List (ℚ × ℚ) :=
  cuts.map fun cut => (qAdd cut kerf, cut)

/-- Lexicographic order on the `(cut + kerf, cut)` tuples, as Python
compares tuples. -/
def pairLeB (p q : ℚ × ℚ) : Bool :=
  decide (p.1 < q.1) || (decide (p.1 = q.1) && decide (p.2 ≤ q.2))

/-- Stable descending insertion: `p` goes after every earlier element that
is lexicographically at least `p`. -/
def insertDesc (p : ℚ × ℚ) : List (ℚ × ℚ) → List (ℚ × ℚ)
  | [] => [p]
  | q :: rest => if pairLeB p q then q :: insertDesc p rest else p :: q :: rest

/-- `cuts_with_kerf.sort(reverse=True)` (source line 71): Python's sort is
stable, and with `reverse=True` it orders tuples descending while keeping
equal tuples in input order; a stable sort is determined by that behaviour,
so insertion sort realizes it. -/
def sortPairsDesc (l : List (ℚ × ℚ)) : List (ℚ × ℚ) :=
  l.foldl (fun acc p => insertDesc p acc) []

/-- Does leftover `v` beat the running minimum (source line 82's strict
`space_left - cut_with_k < min_space_left`, with `none` playing
`float('inf')`)? -/
def beatsMin (v : ℚ) : Option (ℕ × ℚ) → Bool
  | none => true
  | some b => decide (v < b.2)

/-- The scan over `enumerate(bin_usage)` (source lines 80-84): track the
best index and its leftover; a bin takes over only when the cut fits and
strictly lowers the leftover. -/
def bestFitGo (stock cutK : ℚ) : List ℚ → ℕ → Option (ℕ × ℚ) → Option (ℕ × ℚ)
  | [], _, best => best
  | used :: rest, i, best =>
    let space := qSub stock used
    let best2 :=
      if decide (cutK ≤ space) && beatsMin (qSub space cutK) best then
        some (i, qSub space cutK)
      else best
    bestFitGo stock cutK rest (i + 1) best2

/-- `best_fit_index` after the scan (source lines 77-84); `none` models the
sentinel `-1`. -/
def best_fit_index (stock cutK : ℚ) (binUsage : List ℚ) : Option ℕ :=
  (bestFitGo stock cutK binUsage 0 none).map Prod.fst

/-- One iteration of the placement loop (source lines 76-91): open a new
bin, or append to the best-fitting bin and add the cut's effective size to
its usage. -/
def placeCut (stock : ℚ) (st : List (List ℚ) × List ℚ) (p : ℚ × ℚ) :
    List (List ℚ) × List ℚ :=
  match best_fit_index stock p.1 st.2 with
  | none => (st.1 ++ [[p.2]], st.2 ++ [p.1])
  | some i => (st.1.set i (st.1.getD i [] ++ [p.2]), st.2.set i (qAdd (st.2.getD i 0) p.1))

/-- `fit_cuts_to_stock(stock_length, kerf, cuts)` (source lines 69-95):
sort the cuts with kerf descending, place each by best fit, then report
`(bins, wastes, used_lengths)` with the numeric outputs rounded to 4
decimal places. -/
def fit_cuts_to_stock (stock_length kerf : ℚ) (cuts : List ℚ) :
    List (List ℚ) × List ℚ × List ℚ :=
  let sorted := sortPairsDesc (cutsWithKerf kerf cuts)
  let st := sorted.foldl (placeCut stock_length) ([], [])
  (st.1, st.2.map fun usage => pyRound4 (qSub stock_length usage),
    st.2.map fun usage => pyRound4 usage)

/-! ## Specification-side best-fit decreasing

These definitions follow the specification's wording for the packing
algorithm and are compared with the source embedding in claim C1. -/

/-- Modelled from the spec: insert a cut into a descending-by-effective-size
sorted list, after earlier cuts of equal or larger effective size (stable
ties). -/
def insertDescEff (kerf c : ℚ) : List ℚ → List ℚ
  | [] => [c]
  | q :: rest => if c + kerf ≤ q + kerf then q :: insertDescEff kerf c rest else c :: q :: rest

/-- Modelled from the spec: sort the cuts in descending order of effective
size `cut + kerf`, keeping ties in original order. -/
def sort_cuts_desc (kerf : ℚ) (cuts : List ℚ) : List ℚ :=
  cuts.foldl (fun acc c => insertDescEff kerf c acc) []

/-- Modelled from the spec: a bin's used length, the sum of the effective
sizes of its cuts. -/
def binUsed (kerf : ℚ) (bin : List ℚ) : ℚ := (bin.map fun c => c + kerf).sum

/-- Modelled from the spec: a bin's remaining space, the stock length minus
its accumulated effective sizes. -/
def spaceRemaining (stock kerf : ℚ) (bin : List ℚ) : ℚ := stock - binUsed kerf bin

/-- Modelled from the spec: among the bins that can still fit an effective
size `cutK`, the (first) index with the smallest remaining space, together
with the leftover space after placement. -/
def specBestAux (stock kerf cutK : ℚ) : List (List ℚ) → Option (ℕ × ℚ)
  | [] => none
  | b :: rest =>
    let rem := spaceRemaining stock kerf b
    let tailBest := (specBestAux stock kerf cutK rest).map fun q => (q.1 + 1, q.2)
    if cutK ≤ rem then
      match tailBest with
      | none => some (0, rem - cutK)
      | some q => if q.2 < rem - cutK then some q else some (0, rem - cutK)
    else tailBest

/-- Modelled from the spec: the bin chosen for cut `c`. -/
def specBest (stock kerf c : ℚ) (bins : List (List ℚ)) : Option ℕ :=
  (specBestAux stock kerf (c + kerf) bins).map Prod.fst

/-- Modelled from the spec: place cut `c` into its chosen bin, or open a new
bin containing only `c`. -/
def specPlace (stock kerf : ℚ) (bins : List (List ℚ)) (c : ℚ) : List (List ℚ) :=
  match specBest stock kerf c bins with
  | none => bins ++ [[c]]
  | some i => bins.set i (bins.getD i [] ++ [c])

/-- Modelled from the spec: best-fit decreasing — sort the cuts descending
by effective size, then place each in that order. -/
def bfd_spec (stock kerf : ℚ) (cuts : List ℚ) : List (List ℚ) :=
  (sort_cuts_desc kerf cuts).foldl (specPlace stock kerf) []

/-- Combine a running best with the best of the remaining scan: the
remaining candidate wins only when its leftover is strictly smaller
(the tie-keeping of the source's strict `<` update). -/
def combineBest : Option (ℕ × ℚ) → Option (ℕ × ℚ) → Option (ℕ × ℚ)
  | b, none => b
  | none, some r => some r
  | some b, some r => if r.2 < b.2 then some r else some b

/-! # Theorems -/

/-! ## The executable rational operations are the field operations -/

theorem qAdd_eq (a b : ℚ) : qAdd a b = a + b := by
  have hda : ((a.den : ℚ)) ≠ 0 := Nat.cast_ne_zero.mpr a.den_nz
  have hdb : ((b.den : ℚ)) ≠ 0 := Nat.cast_ne_zero.mpr b.den_nz
  have ha : (a.num : ℚ) = a * a.den := (div_eq_iff hda).mp (Rat.num_div_den a)
  have hb : (b.num : ℚ) = b * b.den := (div_eq_iff hdb).mp (Rat.num_div_den b)
  rw [qAdd, Rat.divInt_eq_div]
  push_cast
  rw [div_eq_iff (mul_ne_zero hda hdb), ha, hb]
  ring

theorem qSub_eq (a b : ℚ) : qSub a b = a - b := by
  have hda : ((a.den : ℚ)) ≠ 0 := Nat.cast_ne_zero.mpr a.den_nz
  have hdb : ((b.den : ℚ)) ≠ 0 := Nat.cast_ne_zero.mpr b.den_nz
  have ha : (a.num : ℚ) = a * a.den := (div_eq_iff hda).mp (Rat.num_div_den a)
  have hb : (b.num : ℚ) = b * b.den := (div_eq_iff hdb).mp (Rat.num_div_den b)
  rw [qSub, Rat.divInt_eq_div]
  push_cast
  rw [div_eq_iff (mul_ne_zero hda hdb), ha, hb]
  ring

theorem qMul_eq (a b : ℚ) : qMul a b = a * b := by
  have hda : ((a.den : ℚ)) ≠ 0 := Nat.cast_ne_zero.mpr a.den_nz
  have hdb : ((b.den : ℚ)) ≠ 0 := Nat.cast_ne_zero.mpr b.den_nz
  have ha : (a.num : ℚ) = a * a.den := (div_eq_iff hda).mp (Rat.num_div_den a)
  have hb : (b.num : ℚ) = b * b.den := (div_eq_iff hdb).mp (Rat.num_div_den b)
  rw [qMul, Rat.divInt_eq_div]
  push_cast
  rw [div_eq_iff (mul_ne_zero hda hdb), ha, hb]
  ring

theorem qDiv_eq (a b : ℚ) : qDiv a b = a / b := by
  rcases eq_or_ne b 0 with rfl | hb
  · show Rat.divInt _ (a.den * (0:ℚ).num) = _
    norm_num [qDiv]
  · have hda : ((a.den : ℚ)) ≠ 0 := Nat.cast_ne_zero.mpr a.den_nz
    have hdb : ((b.den : ℚ)) ≠ 0 := Nat.cast_ne_zero.mpr b.den_nz
    have hnb : ((b.num : ℚ)) ≠ 0 := by
      simpa using Rat.num_ne_zero.mpr hb
    have ha : (a.num : ℚ) = a * a.den := (div_eq_iff hda).mp (Rat.num_div_den a)
    have hbn : (b.num : ℚ) = b * b.den := (div_eq_iff hdb).mp (Rat.num_div_den b)
    rw [qDiv, Rat.divInt_eq_div]
    push_cast
    rw [div_eq_iff (mul_ne_zero hda hnb), ha, hbn, div_mul_eq_mul_div, mul_comm b b.den,
      ← mul_assoc, mul_div_assoc, mul_div_assoc, div_self hb, mul_one]

theorem ofIntQ_eq (n : ℤ) : ofIntQ n = (n : ℚ) := by
  rw [ofIntQ, Rat.divInt_eq_div]
  norm_num

theorem qAbs_eq (x : ℚ) : qAbs x = |x| := by
  rw [qAbs]
  split_ifs with h
  · rw [abs_of_neg h]
    have : Rat.divInt (-x.num) x.den = -(Rat.divInt x.num x.den) := by
      rw [Rat.neg_divInt]
    rw [this, Rat.num_divInt_den]
  · rw [abs_of_nonneg (not_lt.mp h)]

/-! ## Rounding bounds -/

theorem ratFloor_le (x : ℚ) : ((Rat.floor x : ℤ) : ℚ) ≤ x :=
  Rat.le_floor.mp le_rfl

theorem lt_ratFloor_add_one (x : ℚ) : x < ((Rat.floor x : ℤ) : ℚ) + 1 := by
  by_contra h
  have h2 : ((Rat.floor x + 1 : ℤ) : ℚ) ≤ x := by
    push_cast
    linarith
  have := Rat.le_floor.mpr h2
  omega

theorem roundHalfEven_close (x : ℚ) : |((roundHalfEven x : ℤ) : ℚ) - x| ≤ 1 / 2 := by
  have hlo := ratFloor_le x
  have hhi := lt_ratFloor_add_one x
  have hhalf : Rat.divInt 1 2 = (1 / 2 : ℚ) := by
    rw [Rat.divInt_eq_div]
    norm_num
  rw [roundHalfEven]
  simp only [qSub_eq, ofIntQ_eq, hhalf]
  split_ifs with h1 h2 h3 <;>
    · rw [abs_le]
      push_cast
      constructor <;> linarith

theorem pyRound4_close (x : ℚ) : |pyRound4 x - x| ≤ 1 / 20000 := by
  have h := roundHalfEven_close (qMul x 10000)
  rw [qMul_eq] at h
  rw [pyRound4, qMul_eq, Rat.divInt_eq_div]
  push_cast
  have hrw : ((roundHalfEven (x * 10000) : ℤ) : ℚ) / 10000 - x
      = (((roundHalfEven (x * 10000) : ℤ) : ℚ) - x * 10000) / 10000 := by
    ring
  rw [hrw, abs_div]
  have h10 : |(10000 : ℚ)| = 10000 := by norm_num
  rw [h10, div_le_iff₀ (by norm_num : (0:ℚ) < 10000)]
  calc |((roundHalfEven (x * 10000) : ℤ) : ℚ) - x * 10000| ≤ 1 / 2 := h
    _ = 1 / 20000 * 10000 := by norm_num

/-! ## Sorting: permutation, descending order, stable ties, and the
bridge between the source tuple sort and the spec-side key sort -/

theorem insertDescEff_perm (kerf c : ℚ) (l : List ℚ) :
    (insertDescEff kerf c l).Perm (c :: l) := by
  induction l with
  | nil => rfl
  | cons q rest ih =>
    rw [insertDescEff]
    split_ifs with h
    · exact ((ih.cons q).trans (List.Perm.swap c q rest))
    · exact List.Perm.refl _

theorem foldl_insertDescEff_perm (kerf : ℚ) (cuts : List ℚ) :
    ∀ acc : List ℚ,
      (cuts.foldl (fun acc c => insertDescEff kerf c acc) acc).Perm (cuts ++ acc) := by
  induction cuts with
  | nil => intro acc; simp
  | cons c cs ih =>
    intro acc
    have h1 := ih (insertDescEff kerf c acc)
    have h2 : (cs ++ insertDescEff kerf c acc).Perm (cs ++ c :: acc) :=
      List.Perm.append_left cs (insertDescEff_perm kerf c acc)
    have h3 : (cs ++ c :: acc).Perm (c :: (cs ++ acc)) := List.perm_middle
    simpa using (h1.trans h2).trans h3

theorem sort_cuts_desc_perm (kerf : ℚ) (cuts : List ℚ) :
    (sort_cuts_desc kerf cuts).Perm cuts := by
  have := foldl_insertDescEff_perm kerf cuts []
  simpa [sort_cuts_desc] using this

theorem insertDescEff_sorted (kerf c : ℚ) (l : List ℚ)
    (h : l.Sorted fun a b => b + kerf ≤ a + kerf) :
    (insertDescEff kerf c l).Sorted fun a b => b + kerf ≤ a + kerf := by
  induction l with
  | nil => simp [insertDescEff]
  | cons q rest ih =>
    rw [List.sorted_cons] at h
    rw [insertDescEff]
    split_ifs with hcq
    · rw [List.sorted_cons]
      refine ⟨?_, ih h.2⟩
      intro x hx
      have hx2 : x ∈ c :: rest := (insertDescEff_perm kerf c rest).mem_iff.mp hx
      rcases List.mem_cons.mp hx2 with rfl | hxr
      · exact hcq
      · exact h.1 x hxr
    · rw [List.sorted_cons]
      refine ⟨?_, List.sorted_cons.mpr h⟩
      intro x hx
      rcases List.mem_cons.mp hx with rfl | hxr
      · linarith
      · have := h.1 x hxr
        linarith

theorem sort_cuts_desc_sorted (kerf : ℚ) (cuts : List ℚ) :
    (sort_cuts_desc kerf cuts).Sorted fun a b => b + kerf ≤ a + kerf := by
  rw [sort_cuts_desc]
  have main : ∀ acc : List ℚ, (acc.Sorted fun a b => b + kerf ≤ a + kerf) →
      ((cuts.foldl (fun acc c => insertDescEff kerf c acc) acc).Sorted
        fun a b => b + kerf ≤ a + kerf) := by
    induction cuts with
    | nil => intro acc hacc; exact hacc
    | cons c cs ih =>
      intro acc hacc
      exact ih _ (insertDescEff_sorted kerf c acc hacc)
  exact main [] (by simp)

theorem sort_cuts_desc_stable (kerf v : ℚ) (cuts : List ℚ) :
    (sort_cuts_desc kerf cuts).filter (fun c => decide (c + kerf = v)) =
      cuts.filter fun c => decide (c + kerf = v) := by
  have hperm := (sort_cuts_desc_perm kerf cuts).filter fun c => decide (c + kerf = v)
  have hall : ∀ (l : List ℚ), ∀ b ∈ l.filter (fun c => decide (c + kerf = v)), b = v - kerf := by
    intro l b hb
    have := List.of_mem_filter hb
    have hbv : b + kerf = v := by simpa using this
    linarith
  have h1 := List.eq_replicate_of_mem (hall (sort_cuts_desc kerf cuts))
  have h2 := List.eq_replicate_of_mem (hall cuts)
  rw [h1, h2, hperm.length_eq]

theorem pairLeB_eq (kerf c q : ℚ) :
    pairLeB (qAdd c kerf, c) (qAdd q kerf, q) = decide (c + kerf ≤ q + kerf) := by
  simp only [pairLeB, qAdd_eq]
  rcases lt_trichotomy (c + kerf) (q + kerf) with h | h | h
  · simp [h, le_of_lt h]
  · have hcq : c = q := by linarith
    subst hcq
    simp [h]
  · simp [not_lt.mpr (le_of_lt h), not_le.mpr h, ne_of_gt h]

theorem insertDesc_map (kerf c : ℚ) (l : List ℚ) :
    insertDesc (qAdd c kerf, c) (l.map fun x => (qAdd x kerf, x)) =
      (insertDescEff kerf c l).map fun x => (qAdd x kerf, x) := by
  induction l with
  | nil => rfl
  | cons x rest ih =>
    simp only [List.map_cons, insertDesc, insertDescEff, pairLeB_eq]
    by_cases h : c + kerf ≤ x + kerf
    · simp [h, ih]
    · simp [h]

theorem sortPairsDesc_map (kerf : ℚ) (cuts : List ℚ) :
    sortPairsDesc (cutsWithKerf kerf cuts) =
      (sort_cuts_desc kerf cuts).map fun x => (qAdd x kerf, x) := by
  rw [sortPairsDesc, cutsWithKerf, List.foldl_map, sort_cuts_desc]
  have main : ∀ acc : List ℚ,
      (cuts.foldl (fun acc c => insertDesc (qAdd c kerf, c) acc)
        (acc.map fun x => (qAdd x kerf, x))) =
      (cuts.foldl (fun acc c => insertDescEff kerf c acc) acc).map
        fun x => (qAdd x kerf, x) := by
    induction cuts with
    | nil => intro acc; rfl
    | cons c cs ih =>
      intro acc
      simp only [List.foldl_cons]
      rw [insertDesc_map, ih]
  simpa using main []

/-! ## The source scan is the spec-side first-minimum choice -/

theorem bestFitGo_eq (stock kerf cutK : ℚ) (B : List (List ℚ)) :
    ∀ (i : ℕ) (best : Option (ℕ × ℚ)),
      bestFitGo stock cutK (B.map (binUsed kerf)) i best =
        combineBest best ((specBestAux stock kerf cutK B).map fun p => (p.1 + i, p.2)) := by
  induction B with
  | nil =>
    intro i best
    cases best <;> rfl
  | cons b rest ih =>
    intro i best
    have hspace : qSub stock (binUsed kerf b) = spaceRemaining stock kerf b := by
      rw [qSub_eq, spaceRemaining]
    have hv : ∀ y : ℚ, qSub y cutK = y - cutK := fun y => qSub_eq y cutK
    have hstep : bestFitGo stock cutK ((b :: rest).map (binUsed kerf)) i best =
        bestFitGo stock cutK (rest.map (binUsed kerf)) (i + 1)
          (if decide (cutK ≤ spaceRemaining stock kerf b) &&
              beatsMin (spaceRemaining stock kerf b - cutK) best then
            some (i, spaceRemaining stock kerf b - cutK)
          else best) := by
      simp only [List.map_cons, bestFitGo, hspace, hv]
    have hhead : specBestAux stock kerf cutK (b :: rest) =
        (if cutK ≤ spaceRemaining stock kerf b then
          match (specBestAux stock kerf cutK rest).map (fun q => (q.1 + 1, q.2)) with
          | none => some (0, spaceRemaining stock kerf b - cutK)
          | some q =>
            if q.2 < spaceRemaining stock kerf b - cutK then some q
            else some (0, spaceRemaining stock kerf b - cutK)
        else (specBestAux stock kerf cutK rest).map fun q => (q.1 + 1, q.2)) := by
      simp only [specBestAux]
    rw [hstep, ih, hhead]
    by_cases hfit : cutK ≤ spaceRemaining stock kerf b
    · have hdec : decide (cutK ≤ spaceRemaining stock kerf b) = true := decide_eq_true hfit
      rw [if_pos hfit, hdec, Bool.true_and]
      rcases hT : specBestAux stock kerf cutK rest with _ | q
      · cases best with
        | none => simp [combineBest, beatsMin]
        | some bb =>
          by_cases h1 : spaceRemaining stock kerf b - cutK < bb.2
          · simp [combineBest, beatsMin, h1]
          · simp [combineBest, beatsMin, h1]
      · by_cases hq : q.2 < spaceRemaining stock kerf b - cutK
        · cases best with
          | none =>
            simp [combineBest, beatsMin, hq, Nat.add_assoc, Nat.add_comm, Nat.add_left_comm]
          | some bb =>
            by_cases h1 : spaceRemaining stock kerf b - cutK < bb.2
            · have htr : q.2 < bb.2 := lt_trans hq h1
              simp [combineBest, beatsMin, hq, h1, htr, Nat.add_assoc, Nat.add_comm,
                Nat.add_left_comm]
            · simp [combineBest, beatsMin, hq, h1, Nat.add_assoc, Nat.add_comm,
                Nat.add_left_comm]
        · cases best with
          | none =>
            simp [combineBest, beatsMin, hq]
          | some bb =>
            by_cases h1 : spaceRemaining stock kerf b - cutK < bb.2
            · simp [combineBest, beatsMin, hq, h1]
            · have h2 : ¬ q.2 < bb.2 := fun hlt => h1 (lt_of_le_of_lt (not_lt.mp hq) hlt)
              simp [combineBest, beatsMin, hq, h1, h2]
    · have hdec : decide (cutK ≤ spaceRemaining stock kerf b) = false :=
        decide_eq_false hfit
      rw [if_neg hfit, hdec, Bool.false_and]
      rcases specBestAux stock kerf cutK rest with _ | q
      · rfl
      · show combineBest best (some (q.1 + (i + 1), q.2)) =
          combineBest best (some (q.1 + 1 + i, q.2))
        rw [show q.1 + 1 + i = q.1 + (i + 1) from by omega]

theorem getD_mem_of_lt {α : Type} (l : List α) (d : α) (n : ℕ) (h : n < l.length) :
    l.getD n d ∈ l := by
  rw [List.getD_eq_getElem?_getD, List.getElem?_eq_getElem h]
  exact List.getElem_mem h

theorem specBestAux_none_iff (stock kerf cutK : ℚ) (B : List (List ℚ)) :
    specBestAux stock kerf cutK B = none ↔
      ∀ b ∈ B, spaceRemaining stock kerf b < cutK := by
  induction B with
  | nil => simp [specBestAux]
  | cons b rest ih =>
    simp only [specBestAux, List.forall_mem_cons]
    rcases hT : specBestAux stock kerf cutK rest with _ | q
    · by_cases hfit : cutK ≤ spaceRemaining stock kerf b
      · simp only [hT, Option.map_none', if_pos hfit]
        constructor
        · intro h
          exact absurd h (by simp)
        · intro h
          exact absurd hfit (not_le.mpr h.1)
      · simp only [hT, Option.map_none', if_neg hfit]
        constructor
        · intro _
          exact ⟨not_le.mp hfit, (ih.mp hT)⟩
        · intro _
          trivial
    · by_cases hfit : cutK ≤ spaceRemaining stock kerf b
      · simp only [hT, Option.map_some', if_pos hfit]
        constructor
        · intro h
          by_cases hq : q.2 < spaceRemaining stock kerf b - cutK <;> simp [hq] at h
        · intro h
          exact absurd hfit (not_le.mpr h.1)
      · simp only [hT, Option.map_some', if_neg hfit]
        constructor
        · intro h
          exact absurd h (by simp)
        · intro h
          have := ih.mpr h.2
          rw [this] at hT
          exact absurd hT (by simp)

theorem specBestAux_some (stock kerf cutK : ℚ) :
    ∀ (B : List (List ℚ)) (i : ℕ) (m : ℚ),
      specBestAux stock kerf cutK B = some (i, m) →
      i < B.length ∧ cutK ≤ spaceRemaining stock kerf (B.getD i []) ∧
        m = spaceRemaining stock kerf (B.getD i []) - cutK ∧
        ∀ j, j < B.length → cutK ≤ spaceRemaining stock kerf (B.getD j []) →
          m ≤ spaceRemaining stock kerf (B.getD j []) - cutK := by
  intro B
  induction B with
  | nil => intro i m h; simp [specBestAux] at h
  | cons b rest ih =>
    intro i m h
    rw [specBestAux] at h
    by_cases hfit : cutK ≤ spaceRemaining stock kerf b
    · rw [if_pos hfit] at h
      rcases hT : specBestAux stock kerf cutK rest with _ | q
      · rw [hT] at h
        simp only [Option.map_none', Option.some.injEq, Prod.mk.injEq] at h
        obtain ⟨hi, hm⟩ := h
        subst hi
        subst hm
        refine ⟨by simp, hfit, rfl, ?_⟩
        intro j hj hjfit
        cases j with
        | zero => exact le_rfl
        | succ jj =>
          exfalso
          have hmem : rest.getD jj [] ∈ rest := getD_mem_of_lt rest [] jj (by simpa using hj)
          have := (specBestAux_none_iff stock kerf cutK rest).mp hT _ hmem
          have hjfit2 : cutK ≤ spaceRemaining stock kerf (rest.getD jj []) := by
            simpa using hjfit
          linarith
      · rw [hT] at h
        simp only [Option.map_some'] at h
        by_cases hq : q.2 < spaceRemaining stock kerf b - cutK
        · rw [if_pos hq] at h
          simp only [Option.some.injEq, Prod.mk.injEq] at h
          obtain ⟨hi, hm⟩ := h
          subst hi
          subst hm
          obtain ⟨hlen, hfit2, hm2, hmin⟩ := ih q.1 q.2 hT
          refine ⟨by simpa using hlen, by simpa using hfit2, by simpa using hm2, ?_⟩
          intro j hj hjfit
          cases j with
          | zero =>
            simp only [List.getD_cons_zero] at hjfit ⊢
            exact le_of_lt hq
          | succ jj =>
            simp only [List.getD_cons_succ] at hjfit ⊢
            exact hmin jj (by simpa using hj) hjfit
        · rw [if_neg hq] at h
          simp only [Option.some.injEq, Prod.mk.injEq] at h
          obtain ⟨hi, hm⟩ := h
          subst hi
          subst hm
          obtain ⟨hlen, hfit2, hm2, hmin⟩ := ih q.1 q.2 hT
          refine ⟨by simp, hfit, rfl, ?_⟩
          intro j hj hjfit
          cases j with
          | zero => exact le_rfl
          | succ jj =>
            simp only [List.getD_cons_succ] at hjfit ⊢
            have h1 : spaceRemaining stock kerf b - cutK ≤ q.2 := not_lt.mp hq
            have h2 := hmin jj (by simpa using hj) hjfit
            linarith [hm2 ▸ h2]
    · rw [if_neg hfit] at h
      rcases hT : specBestAux stock kerf cutK rest with _ | q
      · rw [hT] at h
        simp at h
      · rw [hT] at h
        simp only [Option.map_some', Option.some.injEq, Prod.mk.injEq] at h
        obtain ⟨hi, hm⟩ := h
        subst hi
        subst hm
        obtain ⟨hlen, hfit2, hm2, hmin⟩ := ih q.1 q.2 hT
        refine ⟨by simpa using hlen, by simpa using hfit2, by simpa using hm2, ?_⟩
        intro j hj hjfit
        cases j with
        | zero =>
          simp only [List.getD_cons_zero] at hjfit
          exact absurd hjfit hfit
        | succ jj =>
          simp only [List.getD_cons_succ] at hjfit ⊢
          exact hmin jj (by simpa using hj) hjfit

theorem best_fit_index_eq (stock kerf cutK : ℚ) (B : List (List ℚ)) :
    best_fit_index stock cutK (B.map (binUsed kerf)) =
      (specBestAux stock kerf cutK B).map Prod.fst := by
  rw [best_fit_index, bestFitGo_eq stock kerf cutK B 0 none]
  rcases specBestAux stock kerf cutK B with _ | q
  · rfl
  · show some (q.1 + 0) = some q.1
    rw [Nat.add_zero]

theorem binUsed_append (kerf c : ℚ) (bin : List ℚ) :
    binUsed kerf (bin ++ [c]) = binUsed kerf bin + (c + kerf) := by
  simp [binUsed]

theorem placeCut_eq (stock kerf c : ℚ) (B : List (List ℚ)) :
    placeCut stock (B, B.map (binUsed kerf)) (qAdd c kerf, c) =
      (specPlace stock kerf B c, (specPlace stock kerf B c).map (binUsed kerf)) := by
  have hb : best_fit_index stock (qAdd c kerf, c).1 (B, B.map (binUsed kerf)).2 =
      specBest stock kerf c B := by
    show best_fit_index stock (qAdd c kerf) (B.map (binUsed kerf)) = _
    rw [qAdd_eq, best_fit_index_eq stock kerf (c + kerf) B, specBest]
  rw [placeCut, hb, specPlace]
  rcases hS : specBest stock kerf c B with _ | i
  · show (B ++ [[c]], B.map (binUsed kerf) ++ [qAdd c kerf]) = _
    rw [List.map_append]
    simp [binUsed, qAdd_eq]
  · obtain ⟨⟨i2, m⟩, hSA, hi2⟩ := Option.map_eq_some'.mp hS
    obtain rfl : i2 = i := hi2
    have hchar := specBestAux_some stock kerf (c + kerf) B i2 m hSA
    have hlen : i2 < B.length := hchar.1
    show (B.set i2 (B.getD i2 [] ++ [c]),
        (B.map (binUsed kerf)).set i2 (qAdd ((B.map (binUsed kerf)).getD i2 0) (qAdd c kerf))) = _
    have hgetD : (B.map (binUsed kerf)).getD i2 0 = binUsed kerf (B.getD i2 []) := by
      rw [List.getD_eq_getElem?_getD, List.getD_eq_getElem?_getD,
        List.getElem?_eq_getElem hlen, List.getElem?_eq_getElem (by simpa using hlen)]
      simp
    rw [hgetD, qAdd_eq, qAdd_eq, List.map_set, binUsed_append]

theorem foldl_placeCut_eq (stock kerf : ℚ) (cs : List ℚ) :
    ∀ B : List (List ℚ),
      ((cs.map fun c => (qAdd c kerf, c)).foldl (placeCut stock) (B, B.map (binUsed kerf))) =
        (cs.foldl (specPlace stock kerf) B,
          (cs.foldl (specPlace stock kerf) B).map (binUsed kerf)) := by
  induction cs with
  | nil => intro B; rfl
  | cons c rest ih =>
    intro B
    simp only [List.map_cons, List.foldl_cons]
    rw [placeCut_eq, ih]

theorem fit_cuts_to_stock_eq (stock kerf : ℚ) (cuts : List ℚ) :
    fit_cuts_to_stock stock kerf cuts =
      (bfd_spec stock kerf cuts,
        (bfd_spec stock kerf cuts).map fun b => pyRound4 (qSub stock (binUsed kerf b)),
        (bfd_spec stock kerf cuts).map fun b => pyRound4 (binUsed kerf b)) := by
  rw [fit_cuts_to_stock, sortPairsDesc_map, bfd_spec]
  have hfold := foldl_placeCut_eq stock kerf (sort_cuts_desc kerf cuts) []
  rw [show (([] : List (List ℚ)).map (binUsed kerf)) = [] from rfl] at hfold
  rw [hfold]
  rw [List.map_map, List.map_map]
  rfl

theorem specPlace_usage_le (stock kerf : ℚ) :
    ∀ (cs : List ℚ) (B : List (List ℚ)),
      (∀ c ∈ cs, c + kerf ≤ stock) → (∀ b ∈ B, binUsed kerf b ≤ stock) →
      ∀ b ∈ cs.foldl (specPlace stock kerf) B, binUsed kerf b ≤ stock := by
  intro cs
  induction cs with
  | nil => intro B _ hB; exact hB
  | cons c rest ih =>
    intro B hcs hB
    simp only [List.foldl_cons]
    apply ih _ (fun x hx => hcs x (List.mem_cons_of_mem c hx))
    rw [specPlace]
    rcases hS : specBest stock kerf c B with _ | i
    · intro b hb
      rcases List.mem_append.mp hb with hb1 | hb2
      · exact hB b hb1
      · have : b = [c] := List.mem_singleton.mp hb2
        subst this
        have : binUsed kerf [c] = c + kerf := by simp [binUsed]
        rw [this]
        exact hcs c (List.mem_cons_self c rest)
    · intro b hb
      rcases List.mem_or_eq_of_mem_set hb with hb1 | hb2
      · exact hB b hb1
      · subst hb2
        obtain ⟨⟨i2, m⟩, hSA, hi2⟩ := Option.map_eq_some'.mp hS
        obtain rfl : i2 = i := hi2
        obtain ⟨hlen, hfit, _, _⟩ := specBestAux_some stock kerf (c + kerf) B i2 m hSA
        rw [binUsed_append]
        rw [spaceRemaining] at hfit
        linarith

theorem specPlace_singleton_count (stock kerf : ℚ) (hstock : stock ≤ 0) :
    ∀ (cs : List ℚ) (B : List (List ℚ)),
      (∀ c ∈ cs, 0 < c + kerf) → (∀ b ∈ B, 0 < binUsed kerf b) →
      (cs.foldl (specPlace stock kerf) B).length = B.length + cs.length ∧
        ∀ b ∈ cs.foldl (specPlace stock kerf) B, 0 < binUsed kerf b := by
  intro cs
  induction cs with
  | nil => intro B _ hB; exact ⟨by simp, hB⟩
  | cons c rest ih =>
    intro B hcs hB
    simp only [List.foldl_cons]
    have hnone : specBest stock kerf c B = none := by
      rw [specBest, Option.map_eq_none']
      rw [specBestAux_none_iff]
      intro b hb
      have h1 := hB b hb
      have h2 := hcs c (List.mem_cons_self c rest)
      rw [spaceRemaining]
      linarith
    have hplace : specPlace stock kerf B c = B ++ [[c]] := by
      rw [specPlace, hnone]
    rw [hplace]
    have hB2 : ∀ b ∈ B ++ [[c]], 0 < binUsed kerf b := by
      intro b hb
      rcases List.mem_append.mp hb with hb1 | hb2
      · exact hB b hb1
      · have : b = [c] := List.mem_singleton.mp hb2
        subst this
        have : binUsed kerf [c] = c + kerf := by simp [binUsed]
        rw [this]
        exact hcs c (List.mem_cons_self c rest)
    obtain ⟨hl, hp⟩ := ih (B ++ [[c]]) (fun x hx => hcs x (List.mem_cons_of_mem c hx)) hB2
    refine ⟨?_, hp⟩
    rw [hl]
    simp
    omega

/-! ## Claim theorems -/

/-- C9: for every positive stock length and kerf, `fit_cuts_to_stock` on an
empty cut list succeeds and returns zero bins, an empty waste list and an
empty used-length list. -/
theorem fit_cuts_to_stock_empty (stock_length kerf : ℚ)
    (hs : 0 < stock_length) (hk : 0 < kerf) :
    fit_cuts_to_stock stock_length kerf [] = ([], [], []) := rfl

theorem fit_cuts_to_stock_empty_witness :
    0 < (12 : ℚ) ∧ 0 < (1 / 8 : ℚ) ∧ fit_cuts_to_stock 12 (1 / 8) [] = ([], [], []) :=
  ⟨by norm_num, by norm_num,
    fit_cuts_to_stock_empty 12 (1 / 8) (by norm_num) (by norm_num)⟩

/-- C7 (counterexample): with stock length 12, kerf 1/8 and three cuts of
4.25, `fit_cuts_to_stock` does not return a single bin. -/
theorem fit_three_cuts_counterexample :
    ¬ (fit_cuts_to_stock 12 (1 / 8) [17 / 4, 17 / 4, 17 / 4]).1.length = 1 := by
  with_unfolding_all decide

/-- C7 (amended): with stock length 12, kerf 1/8 and cuts [4.25, 4.25, 4.25]
(effective size 4.375 each, total 13.125 > 12), `fit_cuts_to_stock` returns
two bins: two cuts in the first (used 8.75), the third alone in the second
(used 4.375), with wastes 3.25 and 7.625. -/
theorem fit_three_cuts_two_bins :
    fit_cuts_to_stock 12 (1 / 8) [17 / 4, 17 / 4, 17 / 4] =
      ([[17 / 4, 17 / 4], [17 / 4]], [13 / 4, 61 / 8], [35 / 4, 35 / 8]) := by
  with_unfolding_all decide

/-- C8 (counterexample): `fit_cuts_to_stock` called with the non-positive
stock length 0 does not signal an error: it returns an ordinary packing
result (one bin holding the cut, with negative waste). -/
theorem fit_nonpositive_stock_counterexample :
    fit_cuts_to_stock 0 0 [1] = ([[1]], [-1], [1]) := by
  with_unfolding_all decide

/-- C8 (amended): `fit_cuts_to_stock` performs no validation of
`stock_length`; with a non-positive stock length it still returns a packing
in which every cut of positive effective size occupies a bin of its own, so
the number of bins equals the number of cuts. -/
theorem fit_nonpositive_stock_one_bin_per_cut (stock_length kerf : ℚ) (cuts : List ℚ)
    (hs : stock_length ≤ 0) (hc : ∀ c ∈ cuts, 0 < c + kerf) :
    (fit_cuts_to_stock stock_length kerf cuts).1.length = cuts.length := by
  rw [fit_cuts_to_stock_eq]
  show (bfd_spec stock_length kerf cuts).length = cuts.length
  rw [bfd_spec]
  have hmem : ∀ c ∈ sort_cuts_desc kerf cuts, 0 < c + kerf := fun c hcm =>
    hc c ((sort_cuts_desc_perm kerf cuts).mem_iff.mp hcm)
  obtain ⟨hl, _⟩ := specPlace_singleton_count stock_length kerf hs
    (sort_cuts_desc kerf cuts) [] hmem (by simp)
  rw [hl]
  simpa using (sort_cuts_desc_perm kerf cuts).length_eq

theorem fit_nonpositive_stock_one_bin_per_cut_witness :
    (0 : ℚ) ≤ 0 ∧ (∀ c ∈ ([1, 2] : List ℚ), 0 < c + 0) ∧
      (fit_cuts_to_stock 0 0 [1, 2]).1.length = ([1, 2] : List ℚ).length :=
  ⟨le_refl 0, by intro c hc; fin_cases hc <;> norm_num,
    fit_nonpositive_stock_one_bin_per_cut 0 0 [1, 2] (le_refl 0)
      (by intro c hc; fin_cases hc <;> norm_num)⟩

/-- C5 (counterexample): increasing the stock length can increase the number
of bins: with kerf 0 and cuts [28, 28, 27, 16, 16, 9, 9, 7, 7, 7, 7],
stock length 42 yields 4 bins but the larger stock length 43 yields 5. -/
theorem fit_monotonicity_counterexample :
    (42 : ℚ) ≤ 43 ∧
      ¬ ((fit_cuts_to_stock 43 0 [28, 28, 27, 16, 16, 9, 9, 7, 7, 7, 7]).1.length ≤
          (fit_cuts_to_stock 42 0 [28, 28, 27, 16, 16, 9, 9, 7, 7, 7, 7]).1.length) := by
  with_unfolding_all decide

/-- C5 (amended): the bin count of `fit_cuts_to_stock` is not monotone in
the stock length: holding kerf 0 and the cuts [28, 28, 27, 16, 16, 9, 9, 7,
7, 7, 7] fixed, stock length 42 packs into 4 bins while stock length 43
packs into 5 bins. -/
theorem fit_capacity_anomaly :
    (fit_cuts_to_stock 42 0 [28, 28, 27, 16, 16, 9, 9, 7, 7, 7, 7]).1.length = 4 ∧
    (fit_cuts_to_stock 43 0 [28, 28, 27, 16, 16, 9, 9, 7, 7, 7, 7]).1.length = 5 := by
  with_unfolding_all decide

/-- C6: at precision 32 the value 11.9999/12 feet (11.9999 inches) formats
as the feet-only string for one foot: the limit-denominator rounding of the
fractional remainder 0.9999 returns 1/1, which carries into the whole
inches, and the 12 whole inches carry into the feet. -/
theorem format_feet_inches_carry :
    format_feet_inches (119999 / 120000) 32 = "1\x27" ∧
      limit_denominator (9999 / 10000) 32 = 1 := by
  with_unfolding_all decide

/-- C4 (counterexample): `parse_length` on the empty string and on a
whitespace-only string does not fail: the general pattern matches the empty
input with every group absent, and the parser returns the length 0. -/
theorem parse_length_empty_counterexample :
    parse_length "" = some 0 ∧ parse_length "   " = some 0 := by
  with_unfolding_all decide

/-- C4 (amended): `parse_length` applied to input that is empty after
trimming (and normalization) returns `some 0` — the general regex accepts
the empty string with all groups absent — rather than failing with a
`ParseError`. -/
theorem parse_length_trim_empty_returns_zero (s : String)
    (h : normalizeInput s.data = []) : parse_length s = some 0 := by
  rw [parse_length, h]
  with_unfolding_all decide

theorem parse_length_trim_empty_returns_zero_witness :
    normalizeInput (" \t ").data = [] ∧ parse_length " \t " = some 0 :=
  ⟨by decide, parse_length_trim_empty_returns_zero " \t " (by decide)⟩

/-- C2: round-trip of the canonical strings.  Each canonical string parses
to its exact rational value; formatting that value at precision 32 either
returns the original string or a string that parses back to the same exact
rational length; and the feet-only string round-trips exactly (the trailing
space of the Python f-string is stripped). -/
theorem roundtrip_canonical_strings :
    (parse_length "4\x27 3\"" = some (17 / 4) ∧
      format_feet_inches (17 / 4) 32 = "4\x27 3\"") ∧
    (parse_length "2\x27 7 1/2\"" = some (21 / 8) ∧
      format_feet_inches (21 / 8) 32 = "2\x27 7 1/2\"") ∧
    (parse_length "8 3/4\"" = some (35 / 48) ∧
      format_feet_inches (35 / 48) 32 = "0\x27 8 3/4\"" ∧
      parse_length "0\x27 8 3/4\"" = some (35 / 48)) ∧
    (parse_length "12\x27" = some 12 ∧
      format_feet_inches 12 32 = "12\x27") ∧
    (parse_length "1/8\"" = some (1 / 96) ∧
      format_feet_inches (1 / 96) 32 = "0\x27 0 1/8\"" ∧
      parse_length "0\x27 0 1/8\"" = some (1 / 96)) := by
  with_unfolding_all decide

theorem getD_map_of_lt {α β : Type} (f : α → β) (l : List α) (d : β) (dd : α)
    (i : ℕ) (h : i < l.length) : (l.map f).getD i d = f (l.getD i dd) := by
  rw [List.getD_eq_getElem?_getD, List.getD_eq_getElem?_getD,
    List.getElem?_eq_getElem (by simpa using h), List.getElem?_eq_getElem h]
  simp

/-- C3: for every call of `fit_cuts_to_stock` and every returned bin `i`,
the reported used length equals the sum of `cut + kerf` over the cuts of
bin `i`, and used length plus waste equals the stock length, both within a
1e-4 tolerance (the outputs are rounded to 4 decimal places). -/
theorem fit_cuts_to_stock_sum_invariant (stock_length kerf : ℚ) (cuts : List ℚ)
    (i : ℕ) (hi : i < (fit_cuts_to_stock stock_length kerf cuts).1.length) :
    |(fit_cuts_to_stock stock_length kerf cuts).2.2.getD i 0 -
        (((fit_cuts_to_stock stock_length kerf cuts).1.getD i []).map
          fun cut => cut + kerf).sum| ≤ 1 / 10000 ∧
    |(fit_cuts_to_stock stock_length kerf cuts).2.2.getD i 0 +
        (fit_cuts_to_stock stock_length kerf cuts).2.1.getD i 0 - stock_length| ≤
      1 / 10000 := by
  rw [fit_cuts_to_stock_eq] at hi ⊢
  have hlen : i < (bfd_spec stock_length kerf cuts).length := by simpa using hi
  have hused : ((bfd_spec stock_length kerf cuts).map
      fun b => pyRound4 (binUsed kerf b)).getD i 0 =
      pyRound4 (binUsed kerf ((bfd_spec stock_length kerf cuts).getD i [])) :=
    getD_map_of_lt _ _ 0 [] i hlen
  have hwaste : ((bfd_spec stock_length kerf cuts).map
      fun b => pyRound4 (qSub stock_length (binUsed kerf b))).getD i 0 =
      pyRound4 (qSub stock_length
        (binUsed kerf ((bfd_spec stock_length kerf cuts).getD i []))) :=
    getD_map_of_lt _ _ 0 [] i hlen
  show |((bfd_spec stock_length kerf cuts).map
      fun b => pyRound4 (binUsed kerf b)).getD i 0 - _| ≤ _ ∧ _
  rw [hused, hwaste]
  set u := binUsed kerf ((bfd_spec stock_length kerf cuts).getD i []) with hu
  have hsum : (((bfd_spec stock_length kerf cuts).getD i []).map
      fun cut => cut + kerf).sum = u := rfl
  rw [hsum, qSub_eq]
  have h1 := pyRound4_close u
  have h2 := pyRound4_close (stock_length - u)
  constructor
  · calc |pyRound4 u - u| ≤ 1 / 20000 := h1
      _ ≤ 1 / 10000 := by norm_num
  · have e : pyRound4 u + pyRound4 (stock_length - u) - stock_length =
        (pyRound4 u - u) + (pyRound4 (stock_length - u) - (stock_length - u)) := by
      ring
    rw [e]
    calc |(pyRound4 u - u) + (pyRound4 (stock_length - u) - (stock_length - u))| ≤
          |pyRound4 u - u| + |pyRound4 (stock_length - u) - (stock_length - u)| :=
        abs_add _ _
      _ ≤ 1 / 20000 + 1 / 20000 := add_le_add h1 h2
      _ = 1 / 10000 := by norm_num

theorem fit_cuts_to_stock_sum_invariant_witness :
    0 < (fit_cuts_to_stock 12 (1 / 8) [17 / 4, 17 / 4, 17 / 4]).1.length ∧
    (|(fit_cuts_to_stock 12 (1 / 8) [17 / 4, 17 / 4, 17 / 4]).2.2.getD 0 0 -
        (((fit_cuts_to_stock 12 (1 / 8) [17 / 4, 17 / 4, 17 / 4]).1.getD 0 []).map
          fun cut => cut + 1 / 8).sum| ≤ 1 / 10000 ∧
      |(fit_cuts_to_stock 12 (1 / 8) [17 / 4, 17 / 4, 17 / 4]).2.2.getD 0 0 +
          (fit_cuts_to_stock 12 (1 / 8) [17 / 4, 17 / 4, 17 / 4]).2.1.getD 0 0 - 12| ≤
        1 / 10000) :=
  ⟨by with_unfolding_all decide,
    fit_cuts_to_stock_sum_invariant 12 (1 / 8) [17 / 4, 17 / 4, 17 / 4] 0
      (by with_unfolding_all decide)⟩

/-- C10: when every cut satisfies `cut + kerf ≤ stock_length` (the kerf must
be part of the precondition, since the engine compares effective sizes
against the remaining space), every returned bin has a used length of at
most the stock length and a nonnegative waste, up to the 4-decimal-place
rounding of the outputs (tolerance 1e-4). -/
theorem fit_cuts_to_stock_bounds (stock_length kerf : ℚ) (cuts : List ℚ)
    (h : ∀ c ∈ cuts, c + kerf ≤ stock_length) (i : ℕ)
    (hi : i < (fit_cuts_to_stock stock_length kerf cuts).1.length) :
    (fit_cuts_to_stock stock_length kerf cuts).2.2.getD i 0 ≤
        stock_length + 1 / 10000 ∧
    -(1 / 10000) ≤ (fit_cuts_to_stock stock_length kerf cuts).2.1.getD i 0 := by
  rw [fit_cuts_to_stock_eq] at hi ⊢
  have hlen : i < (bfd_spec stock_length kerf cuts).length := by simpa using hi
  have hused : ((bfd_spec stock_length kerf cuts).map
      fun b => pyRound4 (binUsed kerf b)).getD i 0 =
      pyRound4 (binUsed kerf ((bfd_spec stock_length kerf cuts).getD i [])) :=
    getD_map_of_lt _ _ 0 [] i hlen
  have hwaste : ((bfd_spec stock_length kerf cuts).map
      fun b => pyRound4 (qSub stock_length (binUsed kerf b))).getD i 0 =
      pyRound4 (qSub stock_length
        (binUsed kerf ((bfd_spec stock_length kerf cuts).getD i []))) :=
    getD_map_of_lt _ _ 0 [] i hlen
  show ((bfd_spec stock_length kerf cuts).map
      fun b => pyRound4 (binUsed kerf b)).getD i 0 ≤ _ ∧ _
  rw [hused, hwaste, qSub_eq]
  have hmem : (bfd_spec stock_length kerf cuts).getD i [] ∈ bfd_spec stock_length kerf cuts :=
    getD_mem_of_lt _ [] i hlen
  have hcs : ∀ c ∈ sort_cuts_desc kerf cuts, c + kerf ≤ stock_length := fun c hcm =>
    h c ((sort_cuts_desc_perm kerf cuts).mem_iff.mp hcm)
  have hule : binUsed kerf ((bfd_spec stock_length kerf cuts).getD i []) ≤ stock_length := by
    refine specPlace_usage_le stock_length kerf (sort_cuts_desc kerf cuts) [] hcs
      (by simp) _ ?_
    rw [bfd_spec] at hmem
    exact hmem
  set u := binUsed kerf ((bfd_spec stock_length kerf cuts).getD i []) with hu
  have h1 := abs_le.mp (pyRound4_close u)
  have h2 := abs_le.mp (pyRound4_close (stock_length - u))
  constructor
  · linarith [h1.2]
  · linarith [h2.1]

theorem fit_cuts_to_stock_bounds_witness :
    (∀ c ∈ ([17 / 4, 17 / 4, 17 / 4] : List ℚ), c + 1 / 8 ≤ 12) ∧
    0 < (fit_cuts_to_stock 12 (1 / 8) [17 / 4, 17 / 4, 17 / 4]).1.length ∧
    ((fit_cuts_to_stock 12 (1 / 8) [17 / 4, 17 / 4, 17 / 4]).2.2.getD 0 0 ≤
        12 + 1 / 10000 ∧
      -(1 / 10000) ≤ (fit_cuts_to_stock 12 (1 / 8) [17 / 4, 17 / 4, 17 / 4]).2.1.getD 0 0) :=
  ⟨by intro c hc; fin_cases hc <;> norm_num,
    by with_unfolding_all decide,
    fit_cuts_to_stock_bounds 12 (1 / 8) [17 / 4, 17 / 4, 17 / 4]
      (by intro c hc; fin_cases hc <;> norm_num) 0 (by with_unfolding_all decide)⟩

/-- C1: `fit_cuts_to_stock` is best-fit decreasing exactly as specified: its
bins equal those of the spec-side algorithm `bfd_spec`, whose sort
`sort_cuts_desc` is a permutation of the cuts, descending in effective size
`cut + kerf`, with ties kept deterministically in original order (the
filter at any effective size is unchanged); and whose bin choice `specBest`
returns no index exactly when no open bin's remaining space
(`stock_length` minus accumulated effective sizes) fits the cut, and
otherwise an in-range index of a bin that fits the cut and minimizes the
leftover space after placement among all fitting bins (first such index on
ties). -/
theorem fit_cuts_to_stock_is_best_fit_decreasing (stock_length kerf : ℚ)
    (cuts : List ℚ) :
    (fit_cuts_to_stock stock_length kerf cuts).1 = bfd_spec stock_length kerf cuts
    ∧ (sort_cuts_desc kerf cuts).Perm cuts
    ∧ (sort_cuts_desc kerf cuts).Sorted (fun a b => b + kerf ≤ a + kerf)
    ∧ (∀ v : ℚ, (sort_cuts_desc kerf cuts).filter (fun c => decide (c + kerf = v)) =
        cuts.filter fun c => decide (c + kerf = v))
    ∧ (∀ (c : ℚ) (bins : List (List ℚ)),
        (specBest stock_length kerf c bins = none ↔
          ∀ b ∈ bins, spaceRemaining stock_length kerf b < c + kerf)
        ∧ ∀ i, specBest stock_length kerf c bins = some i →
            i < bins.length ∧
            c + kerf ≤ spaceRemaining stock_length kerf (bins.getD i []) ∧
            ∀ j, j < bins.length →
              c + kerf ≤ spaceRemaining stock_length kerf (bins.getD j []) →
              spaceRemaining stock_length kerf (bins.getD i []) - (c + kerf) ≤
                spaceRemaining stock_length kerf (bins.getD j []) - (c + kerf)) := by
  refine ⟨?_, sort_cuts_desc_perm kerf cuts, sort_cuts_desc_sorted kerf cuts,
    fun v => sort_cuts_desc_stable kerf v cuts, fun c bins => ⟨?_, ?_⟩⟩
  · rw [fit_cuts_to_stock_eq]
  · rw [specBest, Option.map_eq_none']
    exact specBestAux_none_iff stock_length kerf (c + kerf) bins
  · intro i hS
    obtain ⟨⟨i2, m⟩, hSA, hi2⟩ := Option.map_eq_some'.mp hS
    obtain rfl : i2 = i := hi2
    obtain ⟨h1, h2, h3, h4⟩ := specBestAux_some stock_length kerf (c + kerf) bins i2 m hSA
    refine ⟨h1, h2, fun j hj hjf => ?_⟩
    have := h4 j hj hjf
    rw [h3] at this
    linarith

theorem fit_cuts_to_stock_is_best_fit_decreasing_witness :
    (fit_cuts_to_stock 12 (1 / 8) [17 / 4, 17 / 4, 17 / 4]).1 =
        bfd_spec 12 (1 / 8) [17 / 4, 17 / 4, 17 / 4] ∧
      (sort_cuts_desc (1 / 8) [17 / 4, 17 / 4, 17 / 4]).Perm [17 / 4, 17 / 4, 17 / 4] :=
  ⟨(fit_cuts_to_stock_is_best_fit_decreasing 12 (1 / 8) [17 / 4, 17 / 4, 17 / 4]).1,
    (fit_cuts_to_stock_is_best_fit_decreasing 12 (1 / 8) [17 / 4, 17 / 4, 17 / 4]).2.1⟩
